import Mathlib

/-!
Shallow embedding of `featuremapper/analysis/hypercolumns.py` (module
`PowerSpectrumAnalysis`) and proofs about it.

The module estimates the hypercolumn distance of a cyclic preference map from
its 2D Fourier power spectrum.  Array values are embedded as exact rationals
(the combinatorial radial-binning part) or as reals (the closed-form gamma
kernel, which involves `x ** (k-1)` and `exp`).  A 2D `numpy` array of side
`n` is embedded as its side length together with a cell function
`f : ℕ → ℕ → ℚ` giving the value at row/column index; slicing off the last
row and column (`spectrum[:-1, :-1]`) is embedded by shrinking the side
length, which leaves the cell function untouched.

Python-2 semantics notes: `dim / 2` on ints is floor division, embedded as
`Nat` division.  `np.digitize(x, bins)` with increasing integer `bins`
returns the number of edges `e` with `e ≤ x`; for a distance
`x = sqrt(sq)` with `sq : ℕ` the comparison `e ≤ sqrt sq` is equivalent to
`e * e ≤ sq`, which is how the embedding avoids irrational numbers.
-/

namespace FeatureMapper

/-- All (row, column) index pairs of a `d`×`d` array, in row-major order,
matching the iteration order of `numpy.ndarray.flatten`. -/
def cells (d : ℕ) : List (ℕ × ℕ) :=
  ((List.range d).map (fun r => (List.range d).map (fun c => (r, c)))).flatten

/-- Squared Euclidean distance of cell `(r, c)` from the central DC cell
`(d / 2, d / 2)` of a `d`×`d` array.  The source builds the coordinate grid
`np.mgrid[lower:upper, lower:upper]` with `lower = -(dim / 2)` and
`upper = (dim / 2) + 1`, so cell `(r, c)` has grid coordinate
`(r - d / 2, c - d / 2)`. -/
def sqDist (d r c : ℕ) : ℕ :=
  ((r : ℤ) - (d / 2 : ℕ)).natAbs ^ 2 + ((c : ℤ) - (d / 2 : ℕ)).natAbs ^ 2

/-- Embedding of `np.digitize(sqrt sq, pixel_bins)` with `pixel_bins = [0, 1, ..., m]`:
the number of edges `e` with `e ≤ sqrt sq`, i.e. with `e * e ≤ sq`.  A cell
at distance in `[i, i+1)` gets allocation `i + 1`, and a cell at distance
`≥ m` gets allocation `m + 1`. -/
def binAlloc (m sq : ℕ) : ℕ :=
  ((List.range (m + 1)).filter (fun e => e * e ≤ sq)).length

/-- The inverted spectrum values (`1 - value`, line `spectrum = 1 - spectrum`
of the source) of the cells of a `d`×`d` array whose `binAlloc` equals `b`,
in row-major cell order. -/
def binValues (f : ℕ → ℕ → ℚ) (d b : ℕ) : List ℚ :=
  ((cells d).filter (fun rc => binAlloc (d / 2) (sqDist d rc.1 rc.2) = b)).map
    (fun rc => 1 - f rc.1 rc.2)

/-- The allocation indices that actually occur among the cells, in increasing
order: the group keys produced by `itertools.groupby(sorted(spectrum_bins))`.
All allocations lie in `1 .. d/2 + 1`, so ranging over `d/2 + 2` candidates
is exhaustive. -/
def presentBins (d : ℕ) : List ℕ :=
  (List.range (d / 2 + 2)).filter
    (fun b => (cells d).any (fun rc => binAlloc (d / 2) (sqDist d rc.1 rc.2) = b))

/-- Arithmetic mean, embedding the default `averaging_fn = np.mean`. -/
def mean (l : List ℚ) : ℚ := l.sum / (l.length : ℚ)

/-- Embedding of `PowerSpectrumAnalysis.wavenumber_spectrum`.

* The source asserts a square input (`assert dim == _dim`); the embedding is
  square by construction.
* If the side is even, the source slices to `spectrum[:-1, :-1]`
  (warning-level dimension adjustment); the embedding shrinks the side to
  `n - 1`.
* Values are inverted (`spectrum = 1 - spectrum`).
* `sorted(spectrum_bins)` sorts (allocation, value) pairs lexicographically,
  so each group's value list is sorted ascending; `mergeSort` models that
  per-group sort before the aggregation function `agg` (the configurable
  `averaging_fn`, default `mean`) is applied.
* Returns `(averaged_powers, pixel_bins)` with
  `pixel_bins = range(0, dim / 2 + 1)`. -/
def wavenumber_spectrum (agg : List ℚ → ℚ) (n : ℕ) (f : ℕ → ℕ → ℚ) :
    List ℚ × List ℕ :=
  let d := if n % 2 = 0 then n - 1 else n
  ((presentBins d).map (fun b => agg ((binValues f d b).mergeSort (fun a b => a ≤ b))),
   List.range (d / 2 + 1))

/-- The six coefficients of Kaschube et al. equation (7), as returned by the
curve-fitting step. -/
structure FitCoeffs where
  a0 : ℚ
  a1 : ℚ
  a2 : ℚ
  a3 : ℚ
  a4 : ℚ
  a5 : ℚ

/-- The record assembled by `estimate_hypercolumn_distance` (the
`(amplitudes, edges), fit, info` return value flattened into one record). -/
structure HCEstimate where
  amplitudes : List ℚ
  edges : List ℕ
  fit : Option FitCoeffs
  kmax : ℚ
  k_delta : ℚ
  units_per_hc : ℚ
  cycles : ℚ

/-- Embedding of `np.argmax`: index of the first occurrence of the maximum value
(`0` on an empty list; the source would raise there, which is unreachable
for the spectra of side `≥ 3` produced upstream). -/
def argmaxIdx (l : List ℚ) : ℕ :=
  (l.enum.foldl (fun best p => if best.2 < p.2 then p else best) (0, l.headD 0)).1

/-- Embedding of `PowerSpectrumAnalysis.estimate_hypercolumn_distance`.

The nonlinear least-squares step calls `scipy.optimize.curve_fit`, an
external library; its outcome is therefore a parameter `fitOutcome`:
`none` models any exception raised inside the `try` block (the source's
bare `except` sets `valid_fit = False`), `some c` models a completed fit
returning coefficients `c`.  A completed fit is valid iff `0 < c.a1`
(`valid_fit = (fit['a1'] > 0)`).

* `kmax_argmax = np.argmax(amplitudes[1:]) + 1` (DC bin excluded).
* `kmax = fit['a1'] if valid_fit else float(kmax_argmax)`.
* `units_per_hypercolumn = dim if kmax <= 1.0 else dim / float(kmax)`
  where `dim` is the side of the ORIGINAL `power_spectrum` argument
  (`power_spectrum.shape`, read before any truncation).
* `cycles = self._density / units_per_hypercolumn`.
* The returned fit record is `fit if valid_fit else None` and
  `k_delta = kmax - float(kmax_argmax)`. -/
def estimate_hypercolumn_distance (fitOutcome : Option FitCoeffs)
    (density : ℚ) (n : ℕ) (f : ℕ → ℕ → ℚ) : HCEstimate :=
  let ws := wavenumber_spectrum mean n f
  let amplitudes := ws.1
  let kmax_argmax : ℕ := argmaxIdx (amplitudes.drop 1) + 1
  let kmax : ℚ :=
    match fitOutcome with
    | some c => if 0 < c.a1 then c.a1 else (kmax_argmax : ℚ)
    | none => (kmax_argmax : ℚ)
  let units_per_hypercolumn : ℚ := if kmax ≤ 1 then (n : ℚ) else (n : ℚ) / kmax
  { amplitudes := amplitudes
    edges := ws.2
    fit :=
      match fitOutcome with
      | some c => if 0 < c.a1 then some c else none
      | none => none
    kmax := kmax
    k_delta := kmax - (kmax_argmax : ℚ)
    units_per_hc := units_per_hypercolumn
    cycles := density / units_per_hypercolumn }

/-- The error message of the density check in `_process`. -/
def densityErr : String := "Image must have matching x- and y-density"

/-- Embedding of the analysis core of `PowerSpectrumAnalysis._process`
(lines 116-135): derive the x- and y-density from the preference map's
bounds `(l, b, r, t)` and pixel shape `(dim1, dim2)`, reject the input when
they differ (before any spectrum binning takes place), otherwise run
`estimate_hypercolumn_distance` on the `n`×`n` power spectrum and compute
the pinwheel density `rho = pinwheel_count / kmax ** 2`.  The tree-searching
and visualization-assembly parts of `_process` are outside this core. -/
def process (l b r t : ℚ) (dim1 dim2 : ℕ) (pinwheel_count : ℕ)
    (fitOutcome : Option FitCoeffs) (n : ℕ) (f : ℕ → ℕ → ℚ) :
    Except String (HCEstimate × ℚ) :=
  let xdensity : ℚ := (dim1 : ℚ) / |r - l|
  let ydensity : ℚ := (dim2 : ℚ) / |t - b|
  if xdensity ≠ ydensity then Except.error densityErr
  else
    let est := estimate_hypercolumn_distance fitOutcome xdensity n f
    Except.ok (est, (pinwheel_count : ℚ) / est.kmax ^ 2)

/-- Embedding of the classmethod `gamma_dist`:
`(1.0/theta**k) * (1.0/gamma(k)) * x**(k-1) * np.exp(-(x/theta))`.
Powers are real powers (`Real.rpow`), the gamma function is `Real.Gamma`.
For `x < 0` the Python float power `x ** (k-1)` with fractional exponent
raises; `Real.rpow` extends it by `|x|^y * cos (π y)` there. -/
noncomputable def gamma_dist (x k θ : ℝ) : ℝ :=
  (1 / θ ^ k) * (1 / Real.Gamma k) * x ^ (k - 1) * Real.exp (-(x / θ))

/-- Embedding of the classmethod `gamma_metric`: scale parameter
`theta = pi / (gamma_k - 1)` (placing the mode of the gamma density at
`pi`), normalisation `gamma_dist(pi, gamma_k, theta)`, and score
`(1/norm) * gamma_dist(pwd, gamma_k, theta)`. -/
noncomputable def gamma_metric (pwd gamma_k : ℝ) : ℝ :=
  let θ := Real.pi / (gamma_k - 1)
  let norm := gamma_dist Real.pi gamma_k θ
  (1 / norm) * gamma_dist pwd gamma_k θ

/-- The `x`-dependent factor of the gamma density, `x^(k-1) * exp(-(x/θ))`:
the constant prefactor `(1/θ^k) * (1/Γ(k))` of `gamma_dist` cancels in the
ratio computed by `gamma_metric`. -/
noncomputable def gshape (k θ : ℝ) : ℝ → ℝ :=
  fun x => x ^ (k - 1) * Real.exp (-(x / θ))

/-! General lemmas about the embedding -/

/-- Derivative of the shape factor at a positive point. -/
theorem gshape_hasDerivAt (k θ x : ℝ) (hx : 0 < x) :
    HasDerivAt (gshape k θ)
      (((k - 1) - x / θ) * (x ^ (k - 2) * Real.exp (-(x / θ)))) x := by
  have hx0 : x ≠ 0 := ne_of_gt hx
  have h1 : HasDerivAt (fun y : ℝ => y ^ (k - 1)) ((k - 1) * x ^ (k - 1 - 1)) x :=
    Real.hasDerivAt_rpow_const (Or.inl hx0)
  have h2 : HasDerivAt (fun y : ℝ => -(y / θ)) (-(1 / θ)) x := by
    simpa using ((hasDerivAt_id x).div_const θ).neg
  have h4 := h1.mul h2.exp
  have hsplit : x ^ (k - 1) = x ^ (k - 2) * x := by
    have h5 := Real.rpow_add hx (k - 2) 1
    rw [Real.rpow_one, show k - 2 + 1 = k - 1 by ring] at h5
    exact h5
  have hexp : k - 1 - 1 = k - 2 := by ring
  unfold gshape
  convert h4 using 1
  rw [hsplit, hexp]
  ring

theorem gshape_deriv (k θ x : ℝ) (hx : 0 < x) :
    deriv (gshape k θ) x = ((k - 1) - x / θ) * (x ^ (k - 2) * Real.exp (-(x / θ))) :=
  (gshape_hasDerivAt k θ x hx).deriv

theorem gshape_pos (k θ x : ℝ) (hx : 0 < x) : 0 < gshape k θ x :=
  mul_pos (Real.rpow_pos_of_pos hx _) (Real.exp_pos _)

/-- The shape factor is strictly increasing up to the mode `(k-1)·θ`. -/
theorem gshape_strictMonoOn (k θ : ℝ) (hθ : 0 < θ) :
    StrictMonoOn (gshape k θ) (Set.Ioc 0 ((k - 1) * θ)) := by
  apply strictMonoOn_of_deriv_pos (convex_Ioc _ _)
  · intro x hx
    exact (gshape_hasDerivAt k θ x hx.1).continuousAt.continuousWithinAt
  · intro x hx
    rw [interior_Ioc] at hx
    rw [gshape_deriv k θ x hx.1]
    have h1 : 0 < (k - 1) - x / θ := by
      have h2 : x / θ < k - 1 := by
        rw [div_lt_iff₀ hθ]
        exact hx.2
      linarith
    exact mul_pos h1 (mul_pos (Real.rpow_pos_of_pos hx.1 _) (Real.exp_pos _))

/-- The shape factor is strictly decreasing beyond the mode `(k-1)·θ`. -/
theorem gshape_strictAntiOn (k θ : ℝ) (hk : 1 < k) (hθ : 0 < θ) :
    StrictAntiOn (gshape k θ) (Set.Ici ((k - 1) * θ)) := by
  have hM : 0 < (k - 1) * θ := mul_pos (by linarith) hθ
  apply strictAntiOn_of_deriv_neg (convex_Ici _)
  · intro x hx
    exact (gshape_hasDerivAt k θ x (lt_of_lt_of_le hM hx)).continuousAt.continuousWithinAt
  · intro x hx
    rw [interior_Ici] at hx
    have hx0 : 0 < x := lt_trans hM hx
    rw [gshape_deriv k θ x hx0]
    have h1 : (k - 1) - x / θ < 0 := by
      have h2 : k - 1 < x / θ := by
        rw [lt_div_iff₀ hθ]
        exact hx
      linarith
    exact mul_neg_of_neg_of_pos h1
      (mul_pos (Real.rpow_pos_of_pos hx0 _) (Real.exp_pos _))

/-- The gamma metric is the ratio of the shape factor at `x` to the shape
factor at `π`: the constant prefactors of `gamma_dist` cancel. -/
theorem gamma_metric_eq_gshape (k : ℝ) (hk : 1 < k) (x : ℝ) :
    gamma_metric x k =
      gshape k (Real.pi / (k - 1)) x / gshape k (Real.pi / (k - 1)) Real.pi := by
  have hk1 : (0 : ℝ) < k - 1 := by linarith
  have hθ : 0 < Real.pi / (k - 1) := div_pos Real.pi_pos hk1
  have hA1 : (Real.pi / (k - 1)) ^ k ≠ 0 := ne_of_gt (Real.rpow_pos_of_pos hθ k)
  have hA2 : Real.Gamma k ≠ 0 := ne_of_gt (Real.Gamma_pos_of_pos (by linarith))
  have hπ1 : Real.pi ^ (k - 1) ≠ 0 := ne_of_gt (Real.rpow_pos_of_pos Real.pi_pos _)
  have he1 : Real.exp (-(Real.pi / (Real.pi / (k - 1)))) ≠ 0 := Real.exp_ne_zero _
  simp only [gamma_metric, gamma_dist, gshape]
  field_simp
  ring

/-- Counting the elements of `range k` that are at most `t`. -/
theorem length_filter_range_le (k t : ℕ) :
    ((List.range k).filter (fun e => e ≤ t)).length = min (t + 1) k := by
  induction k with
  | zero => simp
  | succ k ih =>
    rw [List.range_succ, List.filter_append]
    by_cases h : k ≤ t <;> simp [h, ih] <;> omega

/-- Closed form of the digitize allocation: `min (Nat.sqrt sq) m + 1`. -/
theorem binAlloc_min (m sq : ℕ) : binAlloc m sq = min (Nat.sqrt sq) m + 1 := by
  have h1 : (List.range (m + 1)).filter (fun e => e * e ≤ sq) =
      (List.range (m + 1)).filter (fun e => e ≤ Nat.sqrt sq) := by
    apply List.filter_congr
    intro x _
    simp only [decide_eq_decide]
    exact Iff.symm Nat.le_sqrt
  rw [binAlloc, h1, length_filter_range_le]
  omega

/-- For a non-final bin index `i < m`, allocation `i + 1` means the squared
distance lies in `[i², (i+1)²)`, i.e. the distance lies in `[i, i+1)`. -/
theorem alloc_eq_iff_lt (m sq i : ℕ) (hi : i < m) :
    binAlloc m sq = i + 1 ↔ i * i ≤ sq ∧ sq < (i + 1) * (i + 1) := by
  rw [binAlloc_min]
  constructor
  · intro hh
    have hs : Nat.sqrt sq = i := by omega
    exact ⟨Nat.le_sqrt.mp (le_of_eq hs.symm), Nat.sqrt_lt.mp (by omega)⟩
  · rintro ⟨h1, h2⟩
    have ha : i ≤ Nat.sqrt sq := Nat.le_sqrt.mpr h1
    have hb : Nat.sqrt sq < i + 1 := Nat.sqrt_lt.mpr h2
    omega

/-- For the final bin index `m`, allocation `m + 1` means the squared
distance is at least `m²`, i.e. the distance is at least `m`. -/
theorem alloc_eq_iff_last (m sq : ℕ) :
    binAlloc m sq = m + 1 ↔ m * m ≤ sq := by
  rw [binAlloc_min]
  constructor
  · intro hh
    exact Nat.le_sqrt.mp (by omega)
  · intro hh
    have := Nat.le_sqrt.mpr hh
    omega

/-- Cell membership: `cells d` holds exactly the index pairs below `d`. -/
theorem mem_cells {d : ℕ} {rc : ℕ × ℕ} : rc ∈ cells d ↔ rc.1 < d ∧ rc.2 < d := by
  rcases rc with ⟨r, c⟩
  simp only [cells, List.mem_flatten, List.mem_map, List.mem_range]
  constructor
  · rintro ⟨l, ⟨a, ha, rfl⟩, hm⟩
    rcases List.mem_map.mp hm with ⟨b, hb, hfb⟩
    cases hfb
    exact ⟨ha, List.mem_range.mp hb⟩
  · rintro ⟨hr, hc⟩
    exact ⟨(List.range d).map (fun c => (r, c)), ⟨r, hr, rfl⟩,
      List.mem_map.mpr ⟨c, List.mem_range.mpr hc, rfl⟩⟩

/-- Squared distance of the cell `j` steps below the centre on the central
column. -/
theorem sqDist_center_row (d j : ℕ) :
    sqDist d (d / 2 + j) (d / 2) = j * j := by
  unfold sqDist
  have h1 : ((d / 2 + j : ℕ) : ℤ) - ((d / 2 : ℕ) : ℤ) = (j : ℤ) := by push_cast; ring
  have h2 : ((d / 2 : ℕ) : ℤ) - ((d / 2 : ℕ) : ℤ) = 0 := by ring
  rw [h1, h2]
  simp [pow_two]

/-- On an odd side `d`, the occupied allocation indices are exactly
`1 .. d/2 + 1`: allocation `0` never occurs, and each allocation `j + 1`
with `j ≤ d/2` is witnessed by the cell `(d/2 + j, d/2)` at distance `j`
from the centre (this is also why the source's
`assert len(bin_boundaries) == len(pixel_bins)` always passes there). -/
theorem presentBins_odd (d : ℕ) (hd : d % 2 = 1) :
    presentBins d = (List.range (d / 2 + 1)).map (fun i => i + 1) := by
  unfold presentBins
  rw [show d / 2 + 2 = (d / 2 + 1) + 1 from rfl, List.range_succ_eq_map]
  rw [List.filter_cons_of_neg]
  · rw [List.filter_map]
    have hall : (List.range (d / 2 + 1)).filter
        ((fun b => (cells d).any fun rc => binAlloc (d / 2) (sqDist d rc.1 rc.2) = b) ∘
          Nat.succ) = List.range (d / 2 + 1) := by
      rw [List.filter_eq_self]
      intro j hj
      have hj' : j < d / 2 + 1 := List.mem_range.mp hj
      simp only [Function.comp_apply, List.any_eq_true]
      refine ⟨(d / 2 + j, d / 2), mem_cells.mpr ⟨by omega, by omega⟩, ?_⟩
      simp only [decide_eq_true_eq]
      rw [sqDist_center_row, binAlloc_min, Nat.sqrt_eq]
      omega
    rw [hall]
  · simp only [List.any_eq_true, decide_eq_true_eq, not_exists, not_and]
    intro rc _
    rw [binAlloc_min]
    omega

/-- The mean is invariant under the per-group sort performed by
`sorted(spectrum_bins)`. -/
theorem mean_mergeSort (l : List ℚ) (le : ℚ → ℚ → Bool) :
    mean (l.mergeSort le) = mean l := by
  have h := List.mergeSort_perm l le
  rw [mean, mean, h.sum_eq, h.length_eq]

/-- On an odd side the spectrum binner reduces to a map over the bin
indices `0 .. n/2`, bin `i` aggregating the cells with allocation `i + 1`. -/
theorem ws_odd (agg : List ℚ → ℚ) (n : ℕ) (f : ℕ → ℕ → ℚ) (h : n % 2 = 1) :
    wavenumber_spectrum agg n f =
      ((List.range (n / 2 + 1)).map
         (fun i => agg ((binValues f n (i + 1)).mergeSort (fun a b => a ≤ b))),
       List.range (n / 2 + 1)) := by
  have h0 : ¬ (n % 2 = 0) := by omega
  simp only [wavenumber_spectrum, if_neg h0]
  rw [presentBins_odd n h, List.map_map]
  rfl

/-- On an even side the truncation `spectrum[:-1, :-1]` makes
`wavenumber_spectrum` agree with a run on the `(n-1)`×`(n-1)` subarray. -/
theorem ws_even (agg : List ℚ → ℚ) (n : ℕ) (f : ℕ → ℕ → ℚ) (h : n % 2 = 0) :
    wavenumber_spectrum agg n f = wavenumber_spectrum agg (n - 1) f := by
  have h1 : (if n % 2 = 0 then n - 1 else n) = n - 1 := by simp [h]
  have h2 : (if (n - 1) % 2 = 0 then n - 1 - 1 else n - 1) = n - 1 := by
    rcases Nat.eq_zero_or_pos n with h0 | hp
    · subst h0; simp
    · have h3 : (n - 1) % 2 = 1 := by omega
      simp [h3]
  simp only [wavenumber_spectrum, h1, h2]

/-! Claim theorems -/

/-- Claim C1: on a square `n`×`n` power spectrum with `n` odd,
`wavenumber_spectrum` (with the default mean aggregation) returns exactly
`n/2 + 1` aggregated power values together with the bin boundaries
`0 .. n/2`, in increasing wavenumber order; the value of bin `i < n/2` is
the mean of the inverted values `1 - v` of exactly the cells whose Euclidean
distance `dist` from the central DC cell satisfies `i ≤ dist < i + 1`
(equivalently `i² ≤ dist² < (i+1)²` on the integer squared distance), and
the final bin `n/2` aggregates all cells with `dist ≥ n/2`. -/
theorem wavenumber_spectrum_odd_bins (n : ℕ) (f : ℕ → ℕ → ℚ) (h : n % 2 = 1) :
    (wavenumber_spectrum mean n f).2 = List.range (n / 2 + 1) ∧
    (wavenumber_spectrum mean n f).1.length = n / 2 + 1 ∧
    (∀ i, i < n / 2 →
      (wavenumber_spectrum mean n f).1[i]? =
        some (mean (((cells n).filter (fun rc =>
            i * i ≤ sqDist n rc.1 rc.2 ∧ sqDist n rc.1 rc.2 < (i + 1) * (i + 1))).map
          (fun rc => 1 - f rc.1 rc.2)))) ∧
    (wavenumber_spectrum mean n f).1[n / 2]? =
      some (mean (((cells n).filter (fun rc =>
          n / 2 * (n / 2) ≤ sqDist n rc.1 rc.2)).map (fun rc => 1 - f rc.1 rc.2))) := by
  rw [ws_odd mean n f h]
  refine ⟨rfl, by simp, fun i hi => ?_, ?_⟩
  · rw [List.getElem?_map, List.getElem?_range (by omega : i < n / 2 + 1)]
    simp only [Option.map_some']
    congr 1
    rw [mean_mergeSort, binValues]
    refine congrArg _ (congrArg _ (List.filter_congr ?_))
    intro rc _
    simp only [decide_eq_decide]
    exact alloc_eq_iff_lt (n / 2) _ i hi
  · rw [List.getElem?_map, List.getElem?_range (by omega : n / 2 < n / 2 + 1)]
    simp only [Option.map_some']
    congr 1
    rw [mean_mergeSort, binValues]
    refine congrArg _ (congrArg _ (List.filter_congr ?_))
    intro rc _
    simp only [decide_eq_decide]
    exact alloc_eq_iff_last (n / 2) _

/-- Witness for C1 at the concrete odd side 5 and the zero spectrum. -/
theorem wavenumber_spectrum_odd_bins_witness :
    5 % 2 = 1 ∧
    ((wavenumber_spectrum mean 5 (fun _ _ => 0)).2 = List.range (5 / 2 + 1) ∧
     (wavenumber_spectrum mean 5 (fun _ _ => 0)).1.length = 5 / 2 + 1 ∧
     (∀ i, i < 5 / 2 →
       (wavenumber_spectrum mean 5 (fun _ _ => 0)).1[i]? =
         some (mean (((cells 5).filter (fun rc =>
             i * i ≤ sqDist 5 rc.1 rc.2 ∧ sqDist 5 rc.1 rc.2 < (i + 1) * (i + 1))).map
           (fun _ => 1 - (0 : ℚ))))) ∧
     (wavenumber_spectrum mean 5 (fun _ _ => 0)).1[5 / 2]? =
       some (mean (((cells 5).filter (fun rc =>
           5 / 2 * (5 / 2) ≤ sqDist 5 rc.1 rc.2)).map (fun _ => 1 - (0 : ℚ))))) :=
  ⟨by decide, wavenumber_spectrum_odd_bins 5 (fun _ _ => 0) (by decide)⟩

/-- Claim C6: for every square `n`×`n` spectrum with `n` even, the binner
truncates the input by dropping the last row and column and produces exactly
the same radial profile (and bin edges) as on the `(n-1)`×`(n-1)` subarray;
the adjustment is recoverable (the embedded function returns normally, with
no failure case — the source only emits a warning). -/
theorem wavenumber_spectrum_even_truncates (agg : List ℚ → ℚ) (n : ℕ)
    (f : ℕ → ℕ → ℚ) (h : n % 2 = 0) :
    wavenumber_spectrum agg n f = wavenumber_spectrum agg (n - 1) f :=
  ws_even agg n f h

/-- Witness for C6 at the concrete even side 4. -/
theorem wavenumber_spectrum_even_truncates_witness :
    4 % 2 = 0 ∧
    wavenumber_spectrum mean 4 (fun _ _ => 0) = wavenumber_spectrum mean 3 (fun _ _ => 0) :=
  ⟨by decide, wavenumber_spectrum_even_truncates mean 4 (fun _ _ => 0) (by decide)⟩

/-- Claim C4: `units_per_hypercolumn` equals the spectrum side length when
`kmax ≤ 1.0` (the boundary `kmax = 1.0` included, via the `≤` branch), and
otherwise the side length divided by `kmax`; `cycles` equals the map density
divided by `units_per_hypercolumn`. -/
theorem units_per_hypercolumn_spec (fo : Option FitCoeffs) (density : ℚ)
    (n : ℕ) (f : ℕ → ℕ → ℚ) :
    (estimate_hypercolumn_distance fo density n f).units_per_hc =
      (if (estimate_hypercolumn_distance fo density n f).kmax ≤ 1 then (n : ℚ)
       else (n : ℚ) / (estimate_hypercolumn_distance fo density n f).kmax) ∧
    (estimate_hypercolumn_distance fo density n f).cycles =
      density / (estimate_hypercolumn_distance fo density n f).units_per_hc :=
  ⟨rfl, rfl⟩

/-- Claim C9: `kmax` is always strictly positive (fallback path: a natural
argmax index plus one, hence at least 1; valid-fit path: `a1 > 0` by the
validity check), so neither `rho = pinwheel_count / kmax ** 2` nor
`dim / kmax` divides by zero. -/
theorem estimate_kmax_pos (fo : Option FitCoeffs) (density : ℚ) (n : ℕ)
    (f : ℕ → ℕ → ℚ) :
    0 < (estimate_hypercolumn_distance fo density n f).kmax ∧
    (estimate_hypercolumn_distance fo density n f).kmax ^ 2 ≠ 0 := by
  have h : 0 < (estimate_hypercolumn_distance fo density n f).kmax := by
    rcases fo with _ | c
    · simp only [estimate_hypercolumn_distance]
      exact_mod_cast Nat.succ_pos _
    · by_cases hc : 0 < c.a1
      · simp [estimate_hypercolumn_distance, hc]
      · simp only [estimate_hypercolumn_distance, if_neg hc]
        exact_mod_cast Nat.succ_pos _
  exact ⟨h, pow_ne_zero 2 (ne_of_gt h)⟩

/-- Claim C2: whenever the fit step raises (modelled `fitOutcome = none`) or
completes with `a1 ≤ 0`, the returned fit record is `none`, `kmax` is the raw
argmax of the profile values at indices `≥ 1` (DC bin excluded) plus one, as
a number, and `k_delta = 0`. -/
theorem estimate_fallback_on_invalid_fit (fo : Option FitCoeffs) (density : ℚ)
    (n : ℕ) (f : ℕ → ℕ → ℚ)
    (h : fo = none ∨ ∃ c, fo = some c ∧ c.a1 ≤ 0) :
    (estimate_hypercolumn_distance fo density n f).fit = none ∧
    (estimate_hypercolumn_distance fo density n f).kmax =
      ((argmaxIdx ((estimate_hypercolumn_distance fo density n f).amplitudes.drop 1) + 1 : ℕ) : ℚ) ∧
    (estimate_hypercolumn_distance fo density n f).k_delta = 0 := by
  rcases h with h | ⟨c, rfl, hc⟩
  · subst h
    simp [estimate_hypercolumn_distance]
  · have h1 : ¬ (0 < c.a1) := not_lt.mpr hc
    simp [estimate_hypercolumn_distance, h1]

/-- Witness for C2 on a concrete failing fit (exception case). -/
theorem estimate_fallback_on_invalid_fit_witness :
    ((none : Option FitCoeffs) = none ∨
      ∃ c, (none : Option FitCoeffs) = some c ∧ c.a1 ≤ 0) ∧
    ((estimate_hypercolumn_distance none 1 3 (fun _ _ => 0)).fit = none ∧
     (estimate_hypercolumn_distance none 1 3 (fun _ _ => 0)).kmax =
       ((argmaxIdx ((estimate_hypercolumn_distance none 1 3 (fun _ _ => 0)).amplitudes.drop 1) + 1 : ℕ) : ℚ) ∧
     (estimate_hypercolumn_distance none 1 3 (fun _ _ => 0)).k_delta = 0) :=
  ⟨Or.inl rfl, estimate_fallback_on_invalid_fit none 1 3 (fun _ _ => 0) (Or.inl rfl)⟩

/-- Claim C10: on an even side `n`, the radial profile (hence `kmax`) comes
from the truncated `(n-1)`×`(n-1)` array, but `units_per_hypercolumn` is
computed from the ORIGINAL side `n` (`power_spectrum.shape` is read on the
untruncated argument). -/
theorem units_from_original_side_even (fo : Option FitCoeffs) (density : ℚ)
    (n : ℕ) (f : ℕ → ℕ → ℚ) (h : n % 2 = 0) :
    (estimate_hypercolumn_distance fo density n f).amplitudes =
      (wavenumber_spectrum mean (n - 1) f).1 ∧
    (estimate_hypercolumn_distance fo density n f).units_per_hc =
      (if (estimate_hypercolumn_distance fo density n f).kmax ≤ 1 then (n : ℚ)
       else (n : ℚ) / (estimate_hypercolumn_distance fo density n f).kmax) := by
  constructor
  · show (wavenumber_spectrum mean n f).1 = _
    rw [ws_even mean n f h]
  · rfl

/-- Witness for C10 at the concrete even side 4. -/
theorem units_from_original_side_even_witness :
    4 % 2 = 0 ∧
    ((estimate_hypercolumn_distance none 1 4 (fun _ _ => 0)).amplitudes =
       (wavenumber_spectrum mean 3 (fun _ _ => 0)).1 ∧
     (estimate_hypercolumn_distance none 1 4 (fun _ _ => 0)).units_per_hc =
       (if (estimate_hypercolumn_distance none 1 4 (fun _ _ => 0)).kmax ≤ 1 then (4 : ℚ)
        else (4 : ℚ) / (estimate_hypercolumn_distance none 1 4 (fun _ _ => 0)).kmax)) :=
  ⟨by decide, units_from_original_side_even none 1 4 (fun _ _ => 0) (by decide)⟩

/-- Claim C7: when the x- and y-density derived from the preference map's
bounds and shape differ, the analysis rejects the input with the
invalid-input error, before the power spectrum is ever binned, and no
estimate record is produced. -/
theorem process_density_mismatch_error (l b r t : ℚ) (dim1 dim2 : ℕ)
    (pc : ℕ) (fo : Option FitCoeffs) (n : ℕ) (f : ℕ → ℕ → ℚ)
    (h : (dim1 : ℚ) / |r - l| ≠ (dim2 : ℚ) / |t - b|) :
    process l b r t dim1 dim2 pc fo n f = Except.error densityErr := by
  simp [process, h]

/-- Witness for C7 at the spec example: xdensity 10, ydensity 12 on a unit
square map. -/
theorem process_density_mismatch_error_witness :
    ((10 : ℕ) : ℚ) / |(1 : ℚ) - 0| ≠ ((12 : ℕ) : ℚ) / |(1 : ℚ) - 0| ∧
    process 0 0 1 1 10 12 0 none 3 (fun _ _ => 0) = Except.error densityErr :=
  ⟨by norm_num,
   process_density_mismatch_error 0 0 1 1 10 12 0 none 3 (fun _ _ => 0) (by norm_num)⟩

/-- Claim C3: for shape parameter `k > 1` and `θ = π/(k-1)`, the gamma
metric equals `gamma_dist(x;k,θ) / gamma_dist(π;k,θ)`; it is exactly `1` at
`x = π`, strictly below `1` at every other positive density, strictly
increasing on `(0, π)` and strictly decreasing on `(π, ∞)`. -/
theorem gamma_metric_unimodal (k : ℝ) (hk : 1 < k) :
    (∀ x : ℝ, gamma_metric x k =
      gamma_dist x k (Real.pi / (k - 1)) / gamma_dist Real.pi k (Real.pi / (k - 1))) ∧
    gamma_metric Real.pi k = 1 ∧
    (∀ x : ℝ, 0 < x → x ≠ Real.pi → gamma_metric x k < 1) ∧
    StrictMonoOn (fun x => gamma_metric x k) (Set.Ioo 0 Real.pi) ∧
    StrictAntiOn (fun x => gamma_metric x k) (Set.Ioi Real.pi) := by
  have hk1 : (0 : ℝ) < k - 1 := by linarith
  have hθ : 0 < Real.pi / (k - 1) := div_pos Real.pi_pos hk1
  have hMπ : (k - 1) * (Real.pi / (k - 1)) = Real.pi := by field_simp
  have hmono : StrictMonoOn (gshape k (Real.pi / (k - 1))) (Set.Ioc 0 Real.pi) := by
    have h := gshape_strictMonoOn k (Real.pi / (k - 1)) hθ
    rwa [hMπ] at h
  have hanti : StrictAntiOn (gshape k (Real.pi / (k - 1))) (Set.Ici Real.pi) := by
    have h := gshape_strictAntiOn k (Real.pi / (k - 1)) hk hθ
    rwa [hMπ] at h
  have hgp : 0 < gshape k (Real.pi / (k - 1)) Real.pi :=
    gshape_pos k (Real.pi / (k - 1)) Real.pi Real.pi_pos
  have heq : ∀ x, gamma_metric x k =
      gshape k (Real.pi / (k - 1)) x / gshape k (Real.pi / (k - 1)) Real.pi :=
    fun x => gamma_metric_eq_gshape k hk x
  refine ⟨?_, ?_, ?_, ?_, ?_⟩
  · intro x
    rw [heq x]
    have hd : ∀ y : ℝ, gamma_dist y k (Real.pi / (k - 1)) =
        (1 / (Real.pi / (k - 1)) ^ k) * (1 / Real.Gamma k) *
          gshape k (Real.pi / (k - 1)) y := by
      intro y
      unfold gamma_dist gshape
      ring
    have hA : (1 / (Real.pi / (k - 1)) ^ k) * (1 / Real.Gamma k) ≠ 0 :=
      mul_ne_zero (one_div_ne_zero (ne_of_gt (Real.rpow_pos_of_pos hθ k)))
        (one_div_ne_zero (ne_of_gt (Real.Gamma_pos_of_pos (by linarith))))
    rw [hd x, hd Real.pi, mul_div_mul_left _ _ hA]
  · rw [heq Real.pi, div_self (ne_of_gt hgp)]
  · intro x hx hne
    rw [heq x, div_lt_one hgp]
    rcases lt_or_gt_of_ne hne with hlt | hgt
    · exact hmono ⟨hx, le_of_lt hlt⟩ ⟨Real.pi_pos, le_refl _⟩ hlt
    · exact hanti (Set.mem_Ici.mpr (le_refl _)) (Set.mem_Ici.mpr (le_of_lt hgt)) hgt
  · intro a ha b hb hab
    simp only
    rw [heq a, heq b, div_lt_div_iff_of_pos_right hgp]
    exact hmono ⟨ha.1, le_of_lt ha.2⟩ ⟨hb.1, le_of_lt hb.2⟩ hab
  · intro a ha b hb hab
    simp only
    rw [heq a, heq b, div_lt_div_iff_of_pos_right hgp]
    exact hanti (Set.mem_Ici.mpr (le_of_lt (Set.mem_Ioi.mp ha)))
      (Set.mem_Ici.mpr (le_of_lt (Set.mem_Ioi.mp hb))) hab

/-- Witness for C3 at the concrete shape parameter `k = 2`. -/
theorem gamma_metric_unimodal_witness :
    (1 : ℝ) < 2 ∧
    ((∀ x : ℝ, gamma_metric x 2 =
       gamma_dist x 2 (Real.pi / (2 - 1)) / gamma_dist Real.pi 2 (Real.pi / (2 - 1))) ∧
     gamma_metric Real.pi 2 = 1 ∧
     (∀ x : ℝ, 0 < x → x ≠ Real.pi → gamma_metric x 2 < 1) ∧
     StrictMonoOn (fun x => gamma_metric x 2) (Set.Ioo 0 Real.pi) ∧
     StrictAntiOn (fun x => gamma_metric x 2) (Set.Ioi Real.pi)) :=
  ⟨one_lt_two, gamma_metric_unimodal 2 one_lt_two⟩

/-- Counterexample to claim C5 as stated: at the strictly negative density
`x = -1` with the default shape parameter `k = 9/5`, the metric is NOT `0`
(it is strictly negative in the real-power semantics, since
`(-1)^(4/5) = cos(4π/5) < 0`; the Python-2 float power raises there, so the
code does not return `0` either). -/
theorem gamma_metric_neg_density_counterexample :
    (-1 : ℝ) ≤ 0 ∧ (1 : ℝ) < 9 / 5 ∧ gamma_metric (-1) (9 / 5) ≠ 0 := by
  refine ⟨by norm_num, by norm_num, ?_⟩
  have hk1 : (0 : ℝ) < 9 / 5 - 1 := by norm_num
  have hθ : 0 < Real.pi / ((9 : ℝ) / 5 - 1) := div_pos Real.pi_pos hk1
  have hA : 0 < (1 / (Real.pi / ((9 : ℝ) / 5 - 1)) ^ ((9 : ℝ) / 5)) *
      (1 / Real.Gamma ((9 : ℝ) / 5)) :=
    mul_pos (one_div_pos.mpr (Real.rpow_pos_of_pos hθ _))
      (one_div_pos.mpr (Real.Gamma_pos_of_pos (by norm_num)))
  have hrp : (-1 : ℝ) ^ ((9 : ℝ) / 5 - 1) =
      Real.cos (((9 : ℝ) / 5 - 1) * Real.pi) := by
    rw [Real.rpow_def_of_neg (by norm_num : (-1 : ℝ) < 0)]
    have hl : Real.log (-1) = 0 := by
      rw [show (-1 : ℝ) = -(1 : ℝ) from rfl, Real.log_neg_eq_log, Real.log_one]
    rw [hl]
    simp
  have hcos : Real.cos (((9 : ℝ) / 5 - 1) * Real.pi) < 0 := by
    apply Real.cos_neg_of_pi_div_two_lt_of_lt
    · nlinarith [Real.pi_pos]
    · nlinarith [Real.pi_pos]
  have hdneg : gamma_dist (-1) (9 / 5) (Real.pi / ((9 : ℝ) / 5 - 1)) < 0 := by
    unfold gamma_dist
    rw [hrp]
    exact mul_neg_of_neg_of_pos (mul_neg_of_pos_of_neg hA hcos) (Real.exp_pos _)
  have hnorm : 0 < gamma_dist Real.pi (9 / 5) (Real.pi / ((9 : ℝ) / 5 - 1)) := by
    unfold gamma_dist
    exact mul_pos (mul_pos hA (Real.rpow_pos_of_pos Real.pi_pos _)) (Real.exp_pos _)
  have hneg : gamma_metric (-1) (9 / 5) < 0 := by
    unfold gamma_metric
    exact mul_neg_of_pos_of_neg (one_div_pos.mpr hnorm) hdneg
  exact ne_of_lt hneg

/-- Claim C5 amended: at density exactly `0` (with `k > 1`) the gamma metric
returns `0`, because the factor `0^(k-1)` vanishes; for strictly negative
densities the power `x^(k-1)` is not a real power of a positive base, so the
score-0 convention is NOT implemented (in real-power semantics the metric is
nonzero there, and the Python float power raises). -/
theorem gamma_metric_zero_density (k : ℝ) (hk : 1 < k) : gamma_metric 0 k = 0 := by
  have hk1 : k - 1 ≠ 0 := ne_of_gt (by linarith : (0 : ℝ) < k - 1)
  simp only [gamma_metric, gamma_dist]
  rw [Real.zero_rpow hk1]
  ring

/-- Witness for the amended C5 at the concrete shape parameter `k = 2`. -/
theorem gamma_metric_zero_density_witness :
    (1 : ℝ) < 2 ∧ gamma_metric 0 2 = 0 :=
  ⟨one_lt_two, gamma_metric_zero_density 2 one_lt_two⟩

end FeatureMapper
